import Mathlib

/-!
Verification of the numerical-methods root finder (`src/Program.py`).

The program is shallowly embedded over the rationals: the Python floats of
the original become `ℚ`, each compiled function becomes an arbitrary
`f : ℚ → ℚ`, and the iterative methods become fueled recursions that return
the same iteration records and the same reported roots that the Python
loops accumulate.  Definitions are transcribed from the source, branch for
branch.
-/

namespace NumMeth

/-- The derivative / denominator guard `1e-10` used by Newton-Raphson,
secant and regula falsi. -/
def epsGuard : ℚ := 1 / 10 ^ 10

/-- Relative error between successive approximations, as computed in the
source (`abs((c - prev_c) / c) * 100 if c != 0 else abs(c - prev_c) * 100`,
with the same shape in `newton_raphson_method` and `secant_method`). -/
def relative_error (x_prev x_curr : ℚ) : ℚ :=
  if x_curr ≠ 0 then |(x_curr - x_prev) / x_curr| * 100
  else |x_curr - x_prev| * 100

/-- Sample points of `np.linspace(lo, hi, n)`: `n` evenly spaced points
from `lo` to `hi` inclusive (`n = 1` gives `[lo]`, `n = 0` gives `[]`). -/
def linspacePt (lo hi : ℚ) (n : ℕ) (i : ℕ) : ℚ :=
  if n ≤ 1 then lo else lo + i * (hi - lo) / (n - 1 : ℕ)

/-- The list form of `np.linspace(lo, hi, n)`. -/
def linspace (lo hi : ℚ) (n : ℕ) : List ℚ :=
  (List.range n).map (linspacePt lo hi n)

/-- The body of `find_sign_change_intervals`: for `i in range(1, len(x))`,
emit `(x[i-1], x[i])` whenever `y[i-1] * y[i] <= 0`. -/
def signChangeScan (f : ℚ → ℚ) (x : ℕ → ℚ) (n : ℕ) : List (ℚ × ℚ) :=
  (List.range (n - 1)).filterMap fun i =>
    if f (x i) * f (x (i + 1)) ≤ 0 then some (x i, x (i + 1)) else none

/-- `find_sign_change_intervals(self, x_min, x_max, num_points=100)` from the
source: sample on `np.linspace(x_min, x_max, num_points)` and collect the
adjacent pairs whose function values have non-positive product. -/
def find_sign_change_intervals (f : ℚ → ℚ) (x_min x_max : ℚ)
    (num_points : ℕ := 100) : List (ℚ × ℚ) :=
  signChangeScan f (linspacePt x_min x_max num_points) num_points

/-- Result of `format_number`: the source either returns the value untouched
(full precision), renders it in scientific notation (an `f"{value:.4e}"`
string), or returns `round(value, 4)`. -/
inductive FormatResult
  | exactVal (v : ℚ)
  | scientific (v : ℚ)
  | roundedVal (v : ℚ)
  deriving DecidableEq, Repr

/-- Round half to even on `ℚ`, the behaviour of Python's builtin `round`. -/
def roundHalfEven (q : ℚ) : ℤ :=
  if q - ⌊q⌋ < 1 / 2 then ⌊q⌋
  else if q - ⌊q⌋ > 1 / 2 then ⌊q⌋ + 1
  else if 2 ∣ ⌊q⌋ then ⌊q⌋ else ⌊q⌋ + 1

/-- Python's `round(value, 4)`. -/
def round4 (q : ℚ) : ℚ := (roundHalfEven (q * 10 ^ 4) : ℚ) / 10 ^ 4

/-- `format_number(self, value)` from the source, on a numeric value:
full precision returns the value unchanged; otherwise magnitudes below
`0.0001` render in scientific notation and the rest are rounded to 4
decimal places. -/
def format_number (use_full_precision : Bool) (value : ℚ) : FormatResult :=
  if use_full_precision then .exactVal value
  else if |value| < 1 / 10 ^ 4 then .scientific value
  else .roundedVal (round4 value)

/-- One row of the Newton-Raphson iteration table
(`{"Iteration": i, "xl": x, "a": error, "f(x)": f_x, "f'(xu)": f_prime_x}`). -/
structure NRRec where
  iteration : ℕ
  x : ℚ
  err : ℚ
  fx : ℚ
  fpx : ℚ
  deriving DecidableEq, Repr

/-- Terminal state of a Newton-Raphson run: converged (root appended is the
new approximation), degenerate derivative (loop broken, no root appended),
or the iteration budget exhausted (root appended is the last `x`). -/
inductive NROutcome
  | converged (root : ℚ)
  | degenerate (x : ℚ)
  | maxIterReached (x : ℚ)
  deriving DecidableEq, Repr

/-- The `for i in range(max_iter)` loop of `newton_raphson_method`,
parameterised over the division operation `dv` so that one can state that
the division is never consulted when the derivative guard trips.  The fuel
argument is `max_iter - i`. -/
def newtonLoopD (dv : ℚ → ℚ → ℚ) (f f' : ℚ → ℚ) (tol : ℚ) (i : ℕ) (x : ℚ) :
    ℕ → List NRRec × NROutcome
  | 0 => ([], .maxIterReached x)
  | fuel + 1 =>
    let f_x := f x
    let f_prime_x := f' x
    if |f_prime_x| < epsGuard then ([], .degenerate x)
    else
      let next_x := x - dv f_x f_prime_x
      let error := relative_error x next_x
      let rec0 : NRRec := ⟨i, x, error, f_x, f_prime_x⟩
      if |f_x| < tol ∨ error < tol then ([rec0], .converged next_x)
      else
        let rest := newtonLoopD dv f f' tol (i + 1) next_x fuel
        (rec0 :: rest.1, rest.2)

/-- `newton_raphson_method(self, initial_guess, tolerance, max_iter)` from
the source, with the actual division `f_x / f_prime_x`. -/
def newton_raphson_method (f f' : ℚ → ℚ) (initial_guess tol : ℚ)
    (max_iter : ℕ) : List NRRec × NROutcome :=
  newtonLoopD (· / ·) f f' tol 0 initial_guess max_iter

/-- Follows the spec's words for the Newton-Raphson convergence test: the
same loop as the source, except that the function-value part of the test is
`|f(x_{n+1})| < tolerance`, evaluated at the new approximation. -/
def newtonLoopSpecPolicy (f f' : ℚ → ℚ) (tol : ℚ) (i : ℕ) (x : ℚ) :
    ℕ → List NRRec × NROutcome
  | 0 => ([], .maxIterReached x)
  | fuel + 1 =>
    let f_x := f x
    let f_prime_x := f' x
    if |f_prime_x| < epsGuard then ([], .degenerate x)
    else
      let next_x := x - f_x / f_prime_x
      let error := relative_error x next_x
      let rec0 : NRRec := ⟨i, x, error, f_x, f_prime_x⟩
      if |f next_x| < tol ∨ error < tol then ([rec0], .converged next_x)
      else
        let rest := newtonLoopSpecPolicy f f' tol (i + 1) next_x fuel
        (rec0 :: rest.1, rest.2)

/-- One row of the bisection iteration table (`{"Iteration": i, "xl": a,
"xr": c, "xu": b, "f(xl)": f_a, "f(xu)": f_b, "|a|,%": error or N/A,
"f(xl)*f(xu)": f_a * f_b, "Remarks": remarks}`); the midpoint `c` is the
`xr` field. -/
structure BisRec where
  iteration : ℕ
  xl : ℚ
  xr : ℚ
  xu : ℚ
  fxl : ℚ
  fxu : ℚ
  errA : Option ℚ
  prodEnds : ℚ
  remarks : String
  deriving DecidableEq, Repr

/-- Whether a per-interval bisection run broke out on convergence or fell
through the `for ... else` after exhausting `max_iter`. -/
inductive BisStatus
  | converged
  | maxIterReached
  deriving DecidableEq, Repr

/-- The relative-error half of the stopping test shared by bisection and
regula falsi: `prev_c is not None and error < tolerance`, where `error`
is the relative error of the current point `c` against `prev_c` (the
source sets `error = float('inf')` when `prev_c is None`, so the test is
false there). -/
def errWithin (tol c : ℚ) (prev_c : Option ℚ) : Bool :=
  match prev_c with
  | some p => decide (relative_error p c < tol)
  | none => false

/-- The stopping test of the bisection and regula falsi loops:
`abs(f_c) < tolerance or (prev_c is not None and error < tolerance)`. -/
def convergedBy (f : ℚ → ℚ) (tol c : ℚ) (prev_c : Option ℚ) : Bool :=
  decide (|f c| < tol) || errWithin tol c prev_c

/-- The per-interval `for i in range(max_iter)` loop of `bisection_method`.
Returns the iteration rows together with `some (root, status)`; the result
is `none` only when the loop body never ran (zero fuel), the path on which
the Python `else` clause would hit undefined `c`.  Fuel is `max_iter - i`. -/
def bisectLoop (f : ℚ → ℚ) (tol : ℚ) (maxIter : ℕ) (a b : ℚ)
    (prev_c : Option ℚ) (i : ℕ) : ℕ → List BisRec × Option (ℚ × BisStatus)
  | 0 => ([], none)
  | fuel + 1 =>
    let c := (a + b) / 2
    let f_a := f a
    let f_b := f b
    let f_c := f c
    let error : Option ℚ := prev_c.map fun p => relative_error p c
    let remarks : String :=
      if |f_c| < tol then "Converged by function value"
      else if errWithin tol c prev_c then "Converged by error tolerance"
      else if i = maxIter - 1 then "Max iterations reached"
      else ""
    let rec0 : BisRec := ⟨i, a, c, b, f_a, f_b, error, f_a * f_b, remarks⟩
    if convergedBy f tol c prev_c then ([rec0], some (c, .converged))
    else
      let ab : ℚ × ℚ := if f_a * f_c < 0 then (a, c) else (c, b)
      let rest := bisectLoop f tol maxIter ab.1 ab.2 (some c) (i + 1) fuel
      match rest with
      | (recs, some r) => (rec0 :: recs, some r)
      | (recs, none) => (rec0 :: recs, some (c, .maxIterReached))

/-- Bisection on one scanner interval `[a, b]`, as `bisection_method` runs
it: `prev_c` starts at `None` and `i` at `0`. -/
def bisection_interval (f : ℚ → ℚ) (tol : ℚ) (a b : ℚ) (maxIter : ℕ) :
    List BisRec × Option (ℚ × BisStatus) :=
  bisectLoop f tol maxIter a b none 0 maxIter

/-- The roots that `bisection_method(self, x_min, x_max, tolerance,
max_iter)` accumulates: one per scanner interval, from the break-on-
convergence append or the `for ... else` append. -/
def bisection_method_roots (f : ℚ → ℚ) (x_min x_max tol : ℚ)
    (maxIter : ℕ) : List ℚ :=
  (find_sign_change_intervals f x_min x_max).filterMap fun ab =>
    ((bisection_interval f tol ab.1 ab.2 maxIter).2).map Prod.fst

/-- One row of the regula falsi iteration table (`{"Iteration": i, "xl": a,
"xu": b, "xr": c, "a": error or N/A, "f(xl)": f_a, "f(xu)": f_b,
"f(xr)": f_c, "f(xl)*f(xr)": f_a * f_c, "Remarks": remarks}`). -/
structure RFRec where
  iteration : ℕ
  xl : ℚ
  xu : ℚ
  xr : ℚ
  errA : Option ℚ
  fxl : ℚ
  fxu : ℚ
  fxr : ℚ
  prodLR : ℚ
  remarks : String
  deriving DecidableEq, Repr

/-- Terminal state of a per-interval regula falsi run: convergence break
(root appended), `for ... else` fall-through (root appended), the
near-zero-denominator warning break (nothing appended), or zero fuel
(the loop body never ran). -/
inductive RFOutcome
  | converged (root : ℚ)
  | maxIterReached (root : ℚ)
  | degenerate
  | exhausted
  deriving DecidableEq, Repr

/-- The per-interval `for i in range(max_iter)` loop of
`regula_falsi_method`.  Fuel is `max_iter - i`; a frame whose recursive
call reports `exhausted` was the last iteration, so it supplies its own
`c` as the `for ... else` root. -/
def rfLoop (f : ℚ → ℚ) (tol : ℚ) (maxIter : ℕ) (a b : ℚ)
    (prev_c : Option ℚ) (i : ℕ) : ℕ → List RFRec × RFOutcome
  | 0 => ([], .exhausted)
  | fuel + 1 =>
    let f_a := f a
    let f_b := f b
    if |f_b - f_a| < epsGuard then ([], .degenerate)
    else
      let c := a - f_a * (b - a) / (f_b - f_a)
      let f_c := f c
      let error : Option ℚ := prev_c.map fun p => relative_error p c
      let remarks : String :=
        if |f_c| < tol then "Converged by function value"
        else if errWithin tol c prev_c then "Converged by error tolerance"
        else if i = maxIter - 1 then "Max iterations reached"
        else ""
      let rec0 : RFRec := ⟨i, a, b, c, error, f_a, f_b, f_c, f_a * f_c,
        remarks⟩
      if convergedBy f tol c prev_c then ([rec0], .converged c)
      else
        let ab : ℚ × ℚ := if f_a * f_c < 0 then (a, c) else (c, b)
        let rest := rfLoop f tol maxIter ab.1 ab.2 (some c) (i + 1) fuel
        match rest with
        | (recs, .exhausted) => (rec0 :: recs, .maxIterReached c)
        | (recs, out) => (rec0 :: recs, out)

/-- The roots that `regula_falsi_method(self, x_min, x_max, tolerance,
max_iter)` accumulates: one per scanner interval on the convergence break
and the `for ... else` fall-through, none when the near-zero-denominator
warning break fires. -/
def regula_falsi_method_roots (f : ℚ → ℚ) (x_min x_max tol : ℚ)
    (maxIter : ℕ) : List ℚ :=
  (find_sign_change_intervals f x_min x_max).filterMap fun ab =>
    match (rfLoop f tol maxIter ab.1 ab.2 none 0 maxIter).2 with
    | .converged r => some r
    | .maxIterReached r => some r
    | _ => none

/-- One row of the incremental-method refinement table (`{"Iteration":
iter_count, "xl": x_l, "x": delta_x, "xu": x_r, "f(xl)": f_xl, "f(xu)":
f_xu, "f(xl)*f(xu)": product, "Remarks": remarks}`). -/
structure IncRec where
  iteration : ℕ
  xl : ℚ
  dx : ℚ
  xu : ℚ
  fxl : ℚ
  fxu : ℚ
  prod : ℚ
  remarks : String
  deriving DecidableEq, Repr

/-- The `while iter_count < max_iter` refinement loop of
`incremental_method`: rows appended inside the loop (always with empty
remarks, since every `break` fires before the append), plus the final
`x_l`, `x_r` and `iter_count`.  Fuel is `max_iter - iter_count`. -/
def incLoop (f : ℚ → ℚ) (tol : ℚ) (x_l x_r : ℚ) (iter_count : ℕ) :
    ℕ → List IncRec × ℚ × ℚ × ℕ
  | 0 => ([], x_l, x_r, iter_count)
  | fuel + 1 =>
    let f_xl := f x_l
    let f_xu := f x_r
    let delta_x := x_r - x_l
    if |f_xl| < tol ∨ |f_xu| < tol ∨ delta_x < tol then
      ([], x_l, x_r, iter_count)
    else
      let rec0 : IncRec := ⟨iter_count, x_l, delta_x, x_r, f_xl, f_xu,
        f_xl * f_xu, ""⟩
      let x_mid := (x_l + x_r) / 2
      let f_mid := f x_mid
      let lr : ℚ × ℚ := if f_xl * f_mid < 0 then (x_l, x_mid) else (x_mid, x_r)
      if |f_mid| < tol ∨ delta_x < tol then
        ([rec0], lr.1, lr.2, iter_count + 1)
      else
        let rest := incLoop f tol lr.1 lr.2 (iter_count + 1) fuel
        (rec0 :: rest.1, rest.2)

/-- The refinement of one bracketed sub-interval in `incremental_method`:
run the loop, then append the final row whose remarks and root come from
the trailing `if abs(f_xl) < tolerance ... elif ... else` chain. -/
def incRefine (f : ℚ → ℚ) (tol : ℚ) (xl0 xr0 : ℚ) (maxIter : ℕ) :
    List IncRec × ℚ :=
  let st := incLoop f tol xl0 xr0 0 maxIter
  let x_l := st.2.1
  let x_r := st.2.2.1
  let iter_count := st.2.2.2
  let f_xl := f x_l
  let f_xu := f x_r
  let delta_x := x_r - x_l
  let product := f_xl * f_xu
  let remarks : String :=
    if |f_xl| < tol then "Converged at xl"
    else if |f_xu| < tol then "Converged at xu"
    else "Final approximation"
  let root : ℚ :=
    if |f_xl| < tol then x_l
    else if |f_xu| < tol then x_r
    else (x_l + x_r) / 2
  (st.1 ++ [⟨iter_count, x_l, delta_x, x_r, f_xl, f_xu, product, remarks⟩],
    root)

/-- Sample point `i` of `graphical_method`, which scans
`np.linspace(x_min, x_max, 1000)`. -/
def gmPt (x_min x_max : ℚ) (i : ℕ) : ℚ := linspacePt x_min x_max 1000 i

/-- The interpolation denominator `y[i] - y[i-1]` of `graphical_method` at
adjacent samples `i-1`, `i` (passed here as `i`, `i+1`). -/
def gmDenom (f : ℚ → ℚ) (x_min x_max : ℚ) (i : ℕ) : ℚ :=
  f (gmPt x_min x_max (i + 1)) - f (gmPt x_min x_max i)

/-- The roots `graphical_method(self, x_min, x_max)` collects: for every
adjacent sample pair with `y[i-1] * y[i] <= 0`, the linear interpolation
`x[i-1] - y[i-1] * (x[i] - x[i-1]) / (y[i] - y[i-1])`.  Division is the
totalised division of `ℚ` (the Python original divides unconditionally). -/
def graphical_method (f : ℚ → ℚ) (x_min x_max : ℚ) : List ℚ :=
  (List.range 999).filterMap fun i =>
    let x0 := gmPt x_min x_max i
    let x1 := gmPt x_min x_max (i + 1)
    if f x0 * f x1 ≤ 0 then
      some (x0 - f x0 * (x1 - x0) / (f x1 - f x0))
    else none

/-- The two function slots that `parse_function` mutates on the session
object: `self.function` and `self.derivative`. -/
structure Session (F : Type) where
  function : Option F
  derivative : Option F
  deriving DecidableEq, Repr

/-- The state-update skeleton of `parse_function`.  Each fallible library
call (`eval` of the normalised text, `sp.lambdify` of the expression,
`sp.diff`, `sp.lambdify` of the derivative) is a parameter returning
`none` when it raises; the surrounding `try/except` turns any raise into
`return False`, keeping whatever assignments already happened.  The source
assigns `self.function` before computing the derivative. -/
def parse_function {E F : Type} (evalExpr : Option E)
    (lambdifyF : E → Option F) (diffExpr : E → Option E)
    (lambdifyD : E → Option F) (s : Session F) : Bool × Session F :=
  match evalExpr with
  | none => (false, s)
  | some fe =>
    match lambdifyF fe with
    | none => (false, s)
    | some fn =>
      let s1 : Session F := { s with function := some fn }
      match diffExpr fe with
      | none => (false, s1)
      | some de =>
        match lambdifyD de with
        | none => (false, s1)
        | some dn => (true, { s1 with derivative := some dn })

/-! ## Helper lemmas -/

/-- Python's `round` lands within half a unit of its argument. -/
lemma roundHalfEven_close (q : ℚ) : |((roundHalfEven q : ℤ) : ℚ) - q| ≤ 1 / 2 := by
  have h0 : ((⌊q⌋ : ℤ) : ℚ) ≤ q := Int.floor_le q
  have h1 : q < (⌊q⌋ : ℤ) + 1 := Int.lt_floor_add_one q
  unfold roundHalfEven
  split_ifs with ha hb hc <;> rw [abs_le] <;> constructor <;> push_cast <;>
    linarith

/-- A `filterMap` whose function hits `some` on every member keeps the
length of the list. -/
lemma length_filterMap_of_isSome {α β : Type} (g : α → Option β) :
    ∀ l : List α, (∀ a ∈ l, (g a).isSome) →
      (l.filterMap g).length = l.length := by
  intro l
  induction l with
  | nil => intro _; rfl
  | cons a t ih =>
    intro h
    have ha := h a (by simp)
    obtain ⟨b, hb⟩ := Option.isSome_iff_exists.mp ha
    simp only [List.filterMap_cons, hb, List.length_cons]
    rw [ih fun x hx => h x (List.mem_cons_of_mem a hx)]

/-! ## Claim theorems -/

/-- Claim C3: the convergence check computes the relative error as
`|x_curr - x_prev| / |x_curr| * 100` when `x_curr ≠ 0` and as
`|x_curr - x_prev| * 100` when `x_curr = 0`, and judges an iteration
converged exactly when `|f(x_curr)| < tolerance` or the relative error is
below tolerance; with no previous approximation (the very first
iteration) the function-value test alone decides. -/
theorem C3_convergence_policy (f : ℚ → ℚ) (tol : ℚ) :
    (∀ p c : ℚ, relative_error p c =
      if c ≠ 0 then |c - p| / |c| * 100 else |c - p| * 100)
    ∧ (∀ p c : ℚ, convergedBy f tol c (some p) = true ↔
        |f c| < tol ∨ relative_error p c < tol)
    ∧ (∀ c : ℚ, convergedBy f tol c none = true ↔ |f c| < tol) := by
  refine ⟨fun p c => ?_, fun p c => ?_, fun c => ?_⟩
  · unfold relative_error
    by_cases hc : c = 0
    · simp [hc]
    · simp [hc, abs_div]
  · simp [convergedBy, errWithin]
  · simp [convergedBy, errWithin]

/-- Witness for C3 at the concrete point `c = 0` with `f = id`,
`tol = 1`. -/
theorem C3_convergence_policy_witness :
    convergedBy id 1 0 none = true ↔ |id (0 : ℚ)| < 1 :=
  (C3_convergence_policy id 1).2.2 0

/-- Claim C8: `format_number` returns the value unchanged under full
precision regardless of magnitude; otherwise magnitudes below `1e-4`
render in scientific notation and the rest are rounded to 4 decimal
places (a multiple of `1e-4` within half a unit in the last place). -/
theorem C8_format_number (v : ℚ) :
    format_number true v = .exactVal v
    ∧ (|v| < 1 / 10 ^ 4 → format_number false v = .scientific v)
    ∧ (1 / 10 ^ 4 ≤ |v| →
        format_number false v = .roundedVal (round4 v)
        ∧ (∃ k : ℤ, round4 v = (k : ℚ) / 10 ^ 4)
        ∧ |round4 v - v| ≤ 1 / (2 * 10 ^ 4)) := by
  refine ⟨by simp [format_number],
    fun h => by rw [one_div] at h; simp [format_number, h],
    fun h => ⟨by rw [one_div] at h; simp [format_number, not_lt.mpr h],
      ⟨roundHalfEven (v * 10 ^ 4), rfl⟩, ?_⟩⟩
  have key := roundHalfEven_close (v * 10 ^ 4)
  have hrw : round4 v - v
      = (((roundHalfEven (v * 10 ^ 4) : ℤ) : ℚ) - v * 10 ^ 4) / 10 ^ 4 := by
    unfold round4; ring
  rw [hrw, abs_div, abs_of_pos (by norm_num : (0 : ℚ) < 10 ^ 4)]
  calc |((roundHalfEven (v * 10 ^ 4) : ℤ) : ℚ) - v * 10 ^ 4| / 10 ^ 4
      ≤ (1 / 2) / 10 ^ 4 := by gcongr
    _ = 1 / (2 * 10 ^ 4) := by norm_num

/-- Witness for C8 at `v = 1/100000`: full precision leaves the small
value unchanged, and without it the value renders scientifically. -/
theorem C8_format_number_witness :
    format_number true ((1 : ℚ) / 100000) = .exactVal (1 / 100000)
    ∧ format_number false ((1 : ℚ) / 100000) = .scientific (1 / 100000) :=
  ⟨(C8_format_number _).1, (C8_format_number _).2.1 (by
    rw [abs_of_pos (by norm_num)]; norm_num)⟩

/-- Claim C2 fails on the code: when the expression eval and the lambdify
of `f` succeed but the symbolic differentiation raises, `parse_function`
returns `False` yet the newly compiled `f` is already installed with no
derivative — the partial state the claim says is unreachable. -/
theorem C2_counterexample :
    parse_function (E := Unit) (F := Unit) (some ()) (fun _ => some ())
      (fun _ => none) (fun _ => some ()) ⟨none, none⟩
      = (false, ⟨some (), none⟩) := rfl

/-- Claim C2 amended: a `True` return is atomic — every step succeeded
and both slots hold the fresh results — and a `False` return never
touches the derivative slot; but the function slot may already hold the
new `f` when differentiation or derivative compilation fails after `f`
was built, so `f`-installed-without-`f'` is reachable on failure. -/
theorem C2_parse_atomicity {E F : Type} (evalExpr : Option E)
    (lambdifyF : E → Option F) (diffExpr : E → Option E)
    (lambdifyD : E → Option F) (s : Session F) :
    (∀ s2, parse_function evalExpr lambdifyF diffExpr lambdifyD s = (true, s2) →
      ∃ fe fn de dn, evalExpr = some fe ∧ lambdifyF fe = some fn
        ∧ diffExpr fe = some de ∧ lambdifyD de = some dn
        ∧ s2.function = some fn ∧ s2.derivative = some dn)
    ∧ (∀ s2, parse_function evalExpr lambdifyF diffExpr lambdifyD s = (false, s2) →
      s2.derivative = s.derivative) := by
  constructor <;> intro s2 h
  · cases hee : evalExpr with
    | none =>
      have hv : parse_function evalExpr lambdifyF diffExpr lambdifyD s
          = (false, s) := by simp [parse_function, hee]
      rw [hv] at h
      exact absurd (congrArg Prod.fst h) (by simp)
    | some fe =>
      cases hlf : lambdifyF fe with
      | none =>
        have hv : parse_function evalExpr lambdifyF diffExpr lambdifyD s
            = (false, s) := by simp [parse_function, hee, hlf]
        rw [hv] at h
        exact absurd (congrArg Prod.fst h) (by simp)
      | some fn =>
        cases hdf : diffExpr fe with
        | none =>
          have hv : parse_function evalExpr lambdifyF diffExpr lambdifyD s
              = (false, ⟨some fn, s.derivative⟩) := by
            simp [parse_function, hee, hlf, hdf]
          rw [hv] at h
          exact absurd (congrArg Prod.fst h) (by simp)
        | some de =>
          cases hld : lambdifyD de with
          | none =>
            have hv : parse_function evalExpr lambdifyF diffExpr lambdifyD s
                = (false, ⟨some fn, s.derivative⟩) := by
              simp [parse_function, hee, hlf, hdf, hld]
            rw [hv] at h
            exact absurd (congrArg Prod.fst h) (by simp)
          | some dn =>
            have hv : parse_function evalExpr lambdifyF diffExpr lambdifyD s
                = (true, ⟨some fn, some dn⟩) := by
              simp [parse_function, hee, hlf, hdf, hld]
            rw [hv] at h
            have h2 : (⟨some fn, some dn⟩ : Session F) = s2 :=
              congrArg Prod.snd h
            exact ⟨fe, fn, de, dn, rfl, hlf, hdf, hld, by rw [← h2],
              by rw [← h2]⟩
  · cases hee : evalExpr with
    | none =>
      have hv : parse_function evalExpr lambdifyF diffExpr lambdifyD s
          = (false, s) := by simp [parse_function, hee]
      rw [hv] at h
      have h2 : s = s2 := congrArg Prod.snd h
      rw [← h2]
    | some fe =>
      cases hlf : lambdifyF fe with
      | none =>
        have hv : parse_function evalExpr lambdifyF diffExpr lambdifyD s
            = (false, s) := by simp [parse_function, hee, hlf]
        rw [hv] at h
        have h2 : s = s2 := congrArg Prod.snd h
        rw [← h2]
      | some fn =>
        cases hdf : diffExpr fe with
        | none =>
          have hv : parse_function evalExpr lambdifyF diffExpr lambdifyD s
              = (false, ⟨some fn, s.derivative⟩) := by
            simp [parse_function, hee, hlf, hdf]
          rw [hv] at h
          have h2 : (⟨some fn, s.derivative⟩ : Session F) = s2 :=
            congrArg Prod.snd h
          rw [← h2]
        | some de =>
          cases hld : lambdifyD de with
          | none =>
            have hv : parse_function evalExpr lambdifyF diffExpr lambdifyD s
                = (false, ⟨some fn, s.derivative⟩) := by
              simp [parse_function, hee, hlf, hdf, hld]
            rw [hv] at h
            have h2 : (⟨some fn, s.derivative⟩ : Session F) = s2 :=
              congrArg Prod.snd h
            rw [← h2]
          | some dn =>
            have hv : parse_function evalExpr lambdifyF diffExpr lambdifyD s
                = (true, ⟨some fn, some dn⟩) := by
              simp [parse_function, hee, hlf, hdf, hld]
            rw [hv] at h
            exact absurd (congrArg Prod.fst h) (by simp)

/-- Witness for the amended C2 on the all-fail-at-diff path: the
derivative slot of the result equals the old one. -/
theorem C2_parse_atomicity_witness :
    (Session.mk (some ()) none : Session Unit).derivative
      = (Session.mk none none : Session Unit).derivative :=
  (C2_parse_atomicity (E := Unit) (F := Unit) (some ()) (fun _ => some ())
    (fun _ => none) (fun _ => some ()) ⟨none, none⟩).2 ⟨some (), none⟩ rfl

/-- Claim C10 fails on the code: for the constant-zero function the
sign-change condition of `graphical_method` triggers at the first adjacent
sample pair while the interpolation denominator is exactly zero, so the
division is not guarded for every input function. -/
theorem C10_counterexample :
    (fun _ : ℚ => (0 : ℚ)) (gmPt 0 1 0) * (fun _ : ℚ => (0 : ℚ)) (gmPt 0 1 1) ≤ 0
    ∧ gmDenom (fun _ => 0) 0 1 0 = 0 := by
  exact ⟨by norm_num, by simp [gmDenom]⟩

/-- Claim C10 amended: when the sign-change condition triggers, the
interpolation denominator of `graphical_method` vanishes exactly when the
two adjacent samples are both exactly zero; with at least one of them
nonzero the division is safe, but the both-zero case reaches it
unguarded. -/
theorem C10_graphical_denominator (f : ℚ → ℚ) (x_min x_max : ℚ) (i : ℕ)
    (hc : f (gmPt x_min x_max i) * f (gmPt x_min x_max (i + 1)) ≤ 0) :
    gmDenom f x_min x_max i = 0 ↔
      f (gmPt x_min x_max i) = 0 ∧ f (gmPt x_min x_max (i + 1)) = 0 := by
  unfold gmDenom
  constructor
  · intro h
    have heq : f (gmPt x_min x_max (i + 1)) = f (gmPt x_min x_max i) := by
      linarith
    rw [heq] at hc
    have h0 : f (gmPt x_min x_max i) = 0 := by nlinarith
    exact ⟨h0, by rw [heq, h0]⟩
  · rintro ⟨h0, h1⟩
    rw [h0, h1, sub_zero]

/-- Witness for the amended C10 with `f = id` on `[0, 1]` at the first
sample pair, where the condition triggers and the samples are not both
zero. -/
theorem C10_graphical_denominator_witness :
    gmDenom id 0 1 0 = 0 ↔ id (gmPt 0 1 0) = 0 ∧ id (gmPt 0 1 1) = 0 :=
  C10_graphical_denominator id 0 1 0 (by norm_num [gmPt, linspacePt])

/-- Claim C5: whenever the derivative magnitude at the current point is
below `1e-10`, the Newton-Raphson loop stops at once as degenerate, with
no record appended and without consulting the division operation at all
(the conclusion holds for every division function `dv`); in particular on
`f(x) = x^2` from initial guess `0` the whole method stops immediately as
degenerate. -/
theorem C5_newton_degenerate_guard :
    (∀ (dv : ℚ → ℚ → ℚ) (f f' : ℚ → ℚ) (tol : ℚ) (i : ℕ) (x : ℚ) (fuel : ℕ),
      1 ≤ fuel → |f' x| < epsGuard →
      newtonLoopD dv f f' tol i x fuel = ([], .degenerate x))
    ∧ ∀ (tol : ℚ) (max_iter : ℕ), 1 ≤ max_iter →
      newton_raphson_method (fun x => x ^ 2) (fun x => 2 * x) 0 tol max_iter
        = ([], .degenerate 0) := by
  have key : ∀ (dv : ℚ → ℚ → ℚ) (f f' : ℚ → ℚ) (tol : ℚ) (i : ℕ) (x : ℚ)
      (fuel : ℕ), 1 ≤ fuel → |f' x| < epsGuard →
      newtonLoopD dv f f' tol i x fuel = ([], .degenerate x) := by
    intro dv f f' tol i x fuel hf hg
    match fuel, hf with
    | n + 1, _ => rw [newtonLoopD]; simp [hg]
  refine ⟨key, fun tol m hm => ?_⟩
  have h := key (· / ·) (fun x => x ^ 2) (fun x => 2 * x) tol 0 0 m hm
    (by norm_num [epsGuard])
  simpa [newton_raphson_method] using h

/-- Witness for C5: on `f(x) = x^2` from guess `0` with tolerance `1` and
3 allowed iterations, the run is immediately degenerate with an empty
trace. -/
theorem C5_newton_degenerate_guard_witness :
    newton_raphson_method (fun x => x ^ 2) (fun x => 2 * x) 0 1 3
      = ([], .degenerate 0) :=
  C5_newton_degenerate_guard.2 1 3 (by norm_num)

/-- Claim C1 fails on the code: on `f(x) = x` from guess `1` with
tolerance `1/2`, the source tests `|f(x_n)|` and therefore needs a second
iteration, while the loop that follows the spec's words (testing
`|f(x_{n+1})|`) stops after the first — the two runs differ. -/
theorem C1_counterexample :
    newton_raphson_method id (fun _ => 1) 1 (1 / 2) 2
        = ([⟨0, 1, 100, 1, 1⟩, ⟨1, 0, 0, 0, 1⟩], .converged 0)
    ∧ newtonLoopSpecPolicy id (fun _ => 1) (1 / 2) 0 1 2
        = ([⟨0, 1, 100, 1, 1⟩], .converged 0)
    ∧ (newton_raphson_method id (fun _ => 1) 1 (1 / 2) 2).1.length
        ≠ (newtonLoopSpecPolicy id (fun _ => 1) (1 / 2) 0 1 2).1.length :=
  of_decide_eq_true (by with_unfolding_all rfl)

/-- Claim C1 amended: whenever the derivative magnitude check passes at a
step, the source judges convergence by `|f(x_n)| < tolerance` — the
function value at the current approximation, not the new one — OR the
relative error of `x_{n+1}` versus `x_n` below tolerance; on convergence
the reported root is `x_{n+1}`, otherwise the loop continues from
`x_{n+1}`. -/
theorem C1_newton_convergence_test (f f' : ℚ → ℚ) (tol : ℚ) (i : ℕ)
    (x : ℚ) (fuel : ℕ) (hfuel : 1 ≤ fuel) (hg : epsGuard ≤ |f' x|) :
    ((|f x| < tol ∨ relative_error x (x - f x / f' x) < tol) →
      newtonLoopD (· / ·) f f' tol i x fuel
        = ([⟨i, x, relative_error x (x - f x / f' x), f x, f' x⟩],
            .converged (x - f x / f' x)))
    ∧ (¬(|f x| < tol ∨ relative_error x (x - f x / f' x) < tol) →
      newtonLoopD (· / ·) f f' tol i x fuel
        = (⟨i, x, relative_error x (x - f x / f' x), f x, f' x⟩ ::
            (newtonLoopD (· / ·) f f' tol (i + 1) (x - f x / f' x) (fuel - 1)).1,
           (newtonLoopD (· / ·) f f' tol (i + 1) (x - f x / f' x) (fuel - 1)).2)) := by
  have hg2 : ¬ |f' x| < epsGuard := not_lt.mpr hg
  match fuel, hfuel with
  | n + 1, _ =>
    rw [newtonLoopD]
    constructor
    · intro hc
      simp [hg2, hc]
    · intro hc
      simp [hg2, hc]

/-- Witness for the amended C1: on `f(x) = x` from `x = 1` with tolerance
`1/2`, neither `|f(x_0)| = 1` nor the relative error `100` is below
tolerance, so with one unit of fuel the loop records the step and runs
out. -/
theorem C1_newton_convergence_test_witness :
    newtonLoopD (· / ·) id (fun _ => 1) (1 / 2) 0 1 1
      = ([⟨0, 1, 100, 1, 1⟩], .maxIterReached 0) := by
  have h := (C1_newton_convergence_test id (fun _ => 1) (1 / 2) 0 1 1
    (le_refl 1) (by norm_num [epsGuard])).2 (by norm_num [relative_error])
  exact h.trans (of_decide_eq_true (by with_unfolding_all rfl))

/-- The refinement loop of the incremental method appends at most one row
per unit of fuel. -/
lemma incLoop_length (f : ℚ → ℚ) (tol : ℚ) :
    ∀ (fuel : ℕ) (x_l x_r : ℚ) (ic : ℕ),
      (incLoop f tol x_l x_r ic fuel).1.length ≤ fuel := by
  intro fuel
  induction fuel with
  | zero => intro x_l x_r ic; simp [incLoop]
  | succ n ih =>
    intro x_l x_r ic
    rw [incLoop]
    by_cases h1 : |f x_l| < tol ∨ |f x_r| < tol ∨ x_r - x_l < tol
    · simp [h1]
    · rw [if_neg h1]
      by_cases h2 : |f ((x_l + x_r) / 2)| < tol ∨ x_r - x_l < tol
      · rw [if_pos h2]; simp
      · rw [if_neg h2]
        simpa using ih _ _ (ic + 1)

/-- Every row appended inside the refinement loop carries empty remarks:
each `break` of the source fires before the append. -/
lemma incLoop_remarks (f : ℚ → ℚ) (tol : ℚ) :
    ∀ (fuel : ℕ) (x_l x_r : ℚ) (ic : ℕ),
      ∀ r ∈ (incLoop f tol x_l x_r ic fuel).1, r.remarks = "" := by
  intro fuel
  induction fuel with
  | zero => intro x_l x_r ic r hr; simp [incLoop] at hr
  | succ n ih =>
    intro x_l x_r ic r hr
    rw [incLoop] at hr
    by_cases h1 : |f x_l| < tol ∨ |f x_r| < tol ∨ x_r - x_l < tol
    · rw [if_pos h1] at hr
      simp at hr
    · rw [if_neg h1] at hr
      by_cases h2 : |f ((x_l + x_r) / 2)| < tol ∨ x_r - x_l < tol
      · rw [if_pos h2] at hr
        simp at hr
        rw [hr]
      · rw [if_neg h2] at hr
        simp at hr
        rcases hr with hr | hr
        · rw [hr]
        · exact ih _ _ (ic + 1) r hr

/-- Claim C7: the refinement of a bracketed sub-interval performs at most
`max_iterations` refinement steps (each recorded with empty remarks), and
the last record appended is the post-loop record, whose remarks value is
non-empty and drawn from the terminal set; the reported root is the
matching endpoint or midpoint. -/
theorem C7_incremental_terminal_remarks (f : ℚ → ℚ) (tol xl0 xr0 : ℚ)
    (maxIter : ℕ) (hm : 1 ≤ maxIter) :
    ∃ pre last,
      (incRefine f tol xl0 xr0 maxIter).1 = pre ++ [last]
      ∧ pre.length ≤ maxIter
      ∧ (∀ r ∈ pre, r.remarks = "")
      ∧ last.remarks ∈ ["Converged at xl", "Converged at xu",
          "Interval too small", "Final approximation"]
      ∧ last.remarks ≠ ""
      ∧ ((|f last.xl| < tol ∧ last.remarks = "Converged at xl"
            ∧ (incRefine f tol xl0 xr0 maxIter).2 = last.xl)
        ∨ (¬ |f last.xl| < tol ∧ |f last.xu| < tol
            ∧ last.remarks = "Converged at xu"
            ∧ (incRefine f tol xl0 xr0 maxIter).2 = last.xu)
        ∨ (¬ |f last.xl| < tol ∧ ¬ |f last.xu| < tol
            ∧ last.remarks = "Final approximation"
            ∧ (incRefine f tol xl0 xr0 maxIter).2 = (last.xl + last.xu) / 2)) := by
  unfold incRefine
  set st := incLoop f tol xl0 xr0 0 maxIter with hst
  by_cases h1 : |f st.2.1| < tol
  · refine ⟨st.1, _, rfl, incLoop_length f tol maxIter xl0 xr0 0,
      incLoop_remarks f tol maxIter xl0 xr0 0, ?_, ?_, ?_⟩
    · simp [h1]
    · simp [h1]
    · left
      simp [h1]
  · by_cases h2 : |f st.2.2.1| < tol
    · refine ⟨st.1, _, rfl, incLoop_length f tol maxIter xl0 xr0 0,
        incLoop_remarks f tol maxIter xl0 xr0 0, ?_, ?_, ?_⟩
      · simp [h1, h2]
      · simp [h1, h2]
      · right; left
        simp [h1, h2]
    · refine ⟨st.1, _, rfl, incLoop_length f tol maxIter xl0 xr0 0,
        incLoop_remarks f tol maxIter xl0 xr0 0, ?_, ?_, ?_⟩
      · simp [h1, h2]
      · simp [h1, h2]
      · right; right
        simp [h1, h2]

/-- Witness for C7: refining `[0, 1]` for `f(x) = x` with tolerance `1/2`
and one refinement step. -/
theorem C7_incremental_terminal_remarks_witness :
    ∃ pre last,
      (incRefine id (1 / 2) 0 1 1).1 = pre ++ [last]
      ∧ pre.length ≤ 1
      ∧ (∀ r ∈ pre, r.remarks = "")
      ∧ last.remarks ∈ ["Converged at xl", "Converged at xu",
          "Interval too small", "Final approximation"]
      ∧ last.remarks ≠ ""
      ∧ ((|id last.xl| < 1 / 2 ∧ last.remarks = "Converged at xl"
            ∧ (incRefine id (1 / 2) 0 1 1).2 = last.xl)
        ∨ (¬ |id last.xl| < 1 / 2 ∧ |id last.xu| < 1 / 2
            ∧ last.remarks = "Converged at xu"
            ∧ (incRefine id (1 / 2) 0 1 1).2 = last.xu)
        ∨ (¬ |id last.xl| < 1 / 2 ∧ ¬ |id last.xu| < 1 / 2
            ∧ last.remarks = "Final approximation"
            ∧ (incRefine id (1 / 2) 0 1 1).2 = (last.xl + last.xu) / 2)) :=
  C7_incremental_terminal_remarks id (1 / 2) 0 1 1 (le_refl 1)

/-- With at least two sample points and `lo < hi`, the linspace samples
are strictly increasing in the index. -/
lemma linspacePt_strictMono (lo hi : ℚ) (n : ℕ) (hn : 2 ≤ n)
    (hlt : lo < hi) {i j : ℕ} (hij : i < j) :
    linspacePt lo hi n i < linspacePt lo hi n j := by
  unfold linspacePt
  rw [if_neg (by omega), if_neg (by omega)]
  have hm : (0 : ℚ) < ((n - 1 : ℕ) : ℚ) := by
    have h1 : 1 ≤ n - 1 := by omega
    exact_mod_cast Nat.lt_of_lt_of_le Nat.zero_lt_one h1
  have hA : (0 : ℚ) < hi - lo := by linarith
  have hcast : (i : ℚ) < (j : ℚ) := by exact_mod_cast hij
  have key : (i : ℚ) * (hi - lo) / ((n - 1 : ℕ) : ℚ)
      < (j : ℚ) * (hi - lo) / ((n - 1 : ℕ) : ℚ) := by
    rw [div_lt_div_iff₀ hm hm]
    nlinarith [mul_lt_mul_of_pos_right hcast (mul_pos hA hm)]
  linarith

/-- Claim C4: the bracketing scanner samples `f` at `n` evenly spaced
points across `[lo, hi]` (first sample `lo`, last sample `hi`, constant
positive spacing, default `n = 100`) and returns exactly the adjacent
sample intervals whose function-value product is `≤ 0` — an exact zero at
a sample counts — ordered by increasing `x`, possibly empty. -/
theorem C4_sign_change_scanner (f : ℚ → ℚ) (lo hi : ℚ) (n : ℕ)
    (hlt : lo < hi) (hn : 2 ≤ n) :
    (linspacePt lo hi n 0 = lo
      ∧ linspacePt lo hi n (n - 1) = hi
      ∧ ∀ i, i + 1 < n →
          linspacePt lo hi n (i + 1) - linspacePt lo hi n i
            = (hi - lo) / ((n - 1 : ℕ) : ℚ))
    ∧ find_sign_change_intervals f lo hi = find_sign_change_intervals f lo hi 100
    ∧ (∀ ab : ℚ × ℚ, ab ∈ find_sign_change_intervals f lo hi n ↔
        ∃ i, i + 1 < n
          ∧ ab = (linspacePt lo hi n i, linspacePt lo hi n (i + 1))
          ∧ f (linspacePt lo hi n i) * f (linspacePt lo hi n (i + 1)) ≤ 0)
    ∧ (find_sign_change_intervals f lo hi n).Pairwise (fun p q => p.1 < q.1)
    ∧ ∀ ab ∈ find_sign_change_intervals f lo hi n, ab.1 < ab.2 := by
  have hm0 : ((n - 1 : ℕ) : ℚ) ≠ 0 := by
    have h1 : 1 ≤ n - 1 := by omega
    have : (0 : ℚ) < ((n - 1 : ℕ) : ℚ) :=
      by exact_mod_cast Nat.lt_of_lt_of_le Nat.zero_lt_one h1
    linarith
  have hchar : ∀ ab : ℚ × ℚ, ab ∈ find_sign_change_intervals f lo hi n ↔
      ∃ i, i + 1 < n
        ∧ ab = (linspacePt lo hi n i, linspacePt lo hi n (i + 1))
        ∧ f (linspacePt lo hi n i) * f (linspacePt lo hi n (i + 1)) ≤ 0 := by
    intro ab
    simp only [find_sign_change_intervals, signChangeScan, List.mem_filterMap,
      List.mem_range, ite_some_none_eq_some]
    constructor
    · rintro ⟨i, hi2, hc, he⟩
      exact ⟨i, by omega, he.symm, hc⟩
    · rintro ⟨i, hi2, he, hc⟩
      exact ⟨i, by omega, hc, he.symm⟩
  refine ⟨⟨?_, ?_, ?_⟩, rfl, hchar, ?_, ?_⟩
  · unfold linspacePt
    rw [if_neg (by omega)]
    simp
  · unfold linspacePt
    rw [if_neg (by omega)]
    have hm1 : ((n : ℚ) - 1) ≠ 0 := by
      have h2 : (2 : ℚ) ≤ (n : ℚ) := by exact_mod_cast hn
      linarith
    push_cast [Nat.cast_sub (by omega : 1 ≤ n)]
    field_simp
  · intro i _
    unfold linspacePt
    rw [if_neg (by omega), if_neg (by omega)]
    push_cast
    ring
  · unfold find_sign_change_intervals signChangeScan
    refine List.Pairwise.filterMap _ ?_ (List.pairwise_lt_range _)
    intro i j hij p hp q hq
    rw [Option.mem_def, ite_some_none_eq_some] at hp hq
    rw [← hp.2, ← hq.2]
    exact linspacePt_strictMono lo hi n hn hlt hij
  · intro ab hab
    obtain ⟨i, _, he, -⟩ := (hchar ab).mp hab
    rw [he]
    exact linspacePt_strictMono lo hi n hn hlt (Nat.lt_succ_self i)

/-- Witness for C4 with `f = id` on `[0, 1]` and two samples. -/
theorem C4_sign_change_scanner_witness :
    linspacePt 0 1 2 0 = 0 ∧ linspacePt 0 1 2 (2 - 1) = 1 :=
  ⟨(C4_sign_change_scanner id 0 1 2 (by norm_num) (le_refl 2)).1.1,
    (C4_sign_change_scanner id 0 1 2 (by norm_num) (le_refl 2)).1.2.1⟩

/-- Full characterisation of a per-interval bisection run with positive
fuel: it returns a nonempty row list and a root with a status; the first
row starts at `(a, b)`; one row is appended per pass (consecutive
iteration numbers, all the fuel used exactly when the status is
max-iterations); every row's `xr` is the midpoint of its endpoints with
the function evaluated at both; consecutive rows narrow by the sign rule;
and the root is the last row's midpoint. -/
lemma bisectLoop_run (f : ℚ → ℚ) (tol : ℚ) (maxIter : ℕ) :
    ∀ (fuel : ℕ) (a b : ℚ) (prev : Option ℚ) (i : ℕ), 1 ≤ fuel →
    ∃ recs root st,
      bisectLoop f tol maxIter a b prev i fuel = (recs, some (root, st))
      ∧ recs ≠ []
      ∧ recs.head?.map (fun rc => (rc.xl, rc.xu)) = some (a, b)
      ∧ recs.length ≤ fuel
      ∧ (st = .maxIterReached → recs.length = fuel)
      ∧ recs.map (fun rc => rc.iteration) = List.range' i recs.length
      ∧ (∀ rc ∈ recs, rc.xr = (rc.xl + rc.xu) / 2 ∧ rc.fxl = f rc.xl
          ∧ rc.fxu = f rc.xu ∧ rc.prodEnds = f rc.xl * f rc.xu)
      ∧ recs.Chain' (fun rc rn => (rn.xl, rn.xu) =
          if f rc.xl * f rc.xr < 0 then (rc.xl, rc.xr) else (rc.xr, rc.xu))
      ∧ ∀ hne : recs ≠ [], root = (recs.getLast hne).xr := by
  intro fuel
  induction fuel with
  | zero => intro a b prev i h; omega
  | succ n ih =>
    intro a b prev i _
    rw [bisectLoop]
    by_cases hcv : convergedBy f tol ((a + b) / 2) prev
    · rw [if_pos hcv]
      refine ⟨_, _, _, rfl, by simp, by simp, by simp, by simp,
        by simp [List.range'], ?_, by simp, fun hne => rfl⟩
      intro rc hrc
      simp at hrc
      rw [hrc]
      exact ⟨rfl, rfl, rfl, rfl⟩
    · rw [if_neg hcv]
      dsimp only
      match n, ih with
      | 0, _ =>
        rw [show bisectLoop f tol maxIter
            (if f a * f ((a + b) / 2) < 0 then (a, (a + b) / 2)
              else ((a + b) / 2, b)).1
            (if f a * f ((a + b) / 2) < 0 then (a, (a + b) / 2)
              else ((a + b) / 2, b)).2
            (some ((a + b) / 2)) (i + 1) 0 = ([], none) from rfl]
        refine ⟨_, _, _, rfl, by simp, by simp, by simp, by simp,
          by simp [List.range'], ?_, by simp, fun hne => rfl⟩
        intro rc hrc
        simp at hrc
        rw [hrc]
        exact ⟨rfl, rfl, rfl, rfl⟩
      | m + 1, ih =>
        obtain ⟨recs1, root1, st1, heq, hne1, hhead1, hlen1, hmax1, hiter1,
          hrec1, hchain1, hlast1⟩ :=
          ih (if f a * f ((a + b) / 2) < 0 then (a, (a + b) / 2)
              else ((a + b) / 2, b)).1
            (if f a * f ((a + b) / 2) < 0 then (a, (a + b) / 2)
              else ((a + b) / 2, b)).2
            (some ((a + b) / 2)) (i + 1) (by omega)
        rw [heq]
        refine ⟨_, root1, st1, rfl, by simp, by simp, ?_, ?_, ?_, ?_, ?_, ?_⟩
        · simpa using hlen1
        · intro hst
          have hh := hmax1 hst
          simpa using hh
        · rw [List.map_cons, hiter1, List.length_cons, List.range'_succ]
        · intro rc hrc
          rcases List.mem_cons.mp hrc with hrc | hrc
          · rw [hrc]
            exact ⟨rfl, rfl, rfl, rfl⟩
          · exact hrec1 rc hrc
        · refine List.chain'_cons'.mpr ⟨?_, hchain1⟩
          intro y hy
          have hy2 : recs1.head? = some y := hy
          rw [hy2] at hhead1
          simp only [Option.map_some', Option.some.injEq] at hhead1
          simpa using hhead1
        · intro hne2
          rw [List.getLast_cons hne1]
          exact hlast1 hne1

/-- Claim C6: for every interval handed to the per-interval bisection loop
with at least one allowed iteration, each pass computes the midpoint of
the current interval as its `xr` row entry, evaluates `f` at both
endpoints, appends exactly one row (consecutive iteration numbers,
exactly `max_iter` rows when the status is max-iterations, never more),
narrows the interval to `(a, c)` when `f(a) * f(c) < 0` and to `(c, b)`
otherwise, and in both terminal cases reports the last computed midpoint
as the root. -/
theorem C6_bisection_interval_run (f : ℚ → ℚ) (tol a b : ℚ)
    (maxIter : ℕ) (hm : 1 ≤ maxIter) :
    ∃ recs root st,
      bisection_interval f tol a b maxIter = (recs, some (root, st))
      ∧ recs ≠ []
      ∧ recs.head?.map (fun rc => (rc.xl, rc.xu)) = some (a, b)
      ∧ recs.length ≤ maxIter
      ∧ (st = .maxIterReached → recs.length = maxIter)
      ∧ recs.map (fun rc => rc.iteration) = List.range' 0 recs.length
      ∧ (∀ rc ∈ recs, rc.xr = (rc.xl + rc.xu) / 2 ∧ rc.fxl = f rc.xl
          ∧ rc.fxu = f rc.xu ∧ rc.prodEnds = f rc.xl * f rc.xu)
      ∧ recs.Chain' (fun rc rn => (rn.xl, rn.xu) =
          if f rc.xl * f rc.xr < 0 then (rc.xl, rc.xr) else (rc.xr, rc.xu))
      ∧ ∀ hne : recs ≠ [], root = (recs.getLast hne).xr :=
  bisectLoop_run f tol maxIter maxIter a b none 0 hm

/-- Witness for C6: bisecting `[0, 1]` for `f(x) = x - 1/3` with
tolerance `1/4` and two allowed iterations. -/
theorem C6_bisection_interval_run_witness :
    ∃ recs root st,
      bisection_interval (fun x => x - 1 / 3) (1 / 4) 0 1 2
          = (recs, some (root, st))
      ∧ recs ≠ []
      ∧ recs.head?.map (fun rc => (rc.xl, rc.xu)) = some (0, 1)
      ∧ recs.length ≤ 2
      ∧ (st = .maxIterReached → recs.length = 2)
      ∧ recs.map (fun rc => rc.iteration) = List.range' 0 recs.length
      ∧ (∀ rc ∈ recs, rc.xr = (rc.xl + rc.xu) / 2
          ∧ rc.fxl = (fun x => x - 1 / 3) rc.xl
          ∧ rc.fxu = (fun x => x - 1 / 3) rc.xu
          ∧ rc.prodEnds = (fun x => x - 1 / 3) rc.xl * (fun x => x - 1 / 3) rc.xu)
      ∧ recs.Chain' (fun rc rn => (rn.xl, rn.xu) =
          if (fun x => x - 1 / 3) rc.xl * (fun x => x - 1 / 3) rc.xr < 0
          then (rc.xl, rc.xr) else (rc.xr, rc.xu))
      ∧ ∀ hne : recs ≠ [], root = (recs.getLast hne).xr :=
  C6_bisection_interval_run (fun x => x - 1 / 3) (1 / 4) 0 1 2 (by norm_num)

/-- When an interior sample evaluates to exactly zero, the scanner output
splits around the two adjacent intervals that share that sample. -/
lemma signChange_zero_sample_split (f : ℚ → ℚ) (lo hi : ℚ) (n j : ℕ)
    (hj : j + 2 < n) (h0 : f (linspacePt lo hi n (j + 1)) = 0) :
    ∃ pre post,
      find_sign_change_intervals f lo hi n
        = pre ++ (linspacePt lo hi n j, linspacePt lo hi n (j + 1))
            :: (linspacePt lo hi n (j + 1), linspacePt lo hi n (j + 2)) :: post := by
  unfold find_sign_change_intervals signChangeScan
  have h1 : n - 1 = j + 1 + 1 + (n - 3 - j) := by omega
  rw [h1, List.range_add, List.range_succ, List.range_succ]
  simp only [List.filterMap_append, List.append_assoc]
  refine ⟨(List.range j).filterMap
      (fun i => if f (linspacePt lo hi n i) * f (linspacePt lo hi n (i + 1)) ≤ 0
        then some (linspacePt lo hi n i, linspacePt lo hi n (i + 1)) else none),
    ((List.range (n - 3 - j)).map (fun t => j + 1 + 1 + t)).filterMap
      (fun i => if f (linspacePt lo hi n i) * f (linspacePt lo hi n (i + 1)) ≤ 0
        then some (linspacePt lo hi n i, linspacePt lo hi n (i + 1)) else none),
    ?_⟩
  congr 1
  simp [List.filterMap_cons, h0]

/-- With at least one allowed iteration, the per-interval bisection loop
always produces a reported root. -/
lemma bisection_interval_isSome (f : ℚ → ℚ) (tol a b : ℚ) (maxIter : ℕ)
    (hm : 1 ≤ maxIter) : ((bisection_interval f tol a b maxIter).2).isSome := by
  obtain ⟨recs, root, st, heq, -⟩ :=
    bisectLoop_run f tol maxIter maxIter a b none 0 hm
  unfold bisection_interval
  rw [heq]
  rfl

/-- `bisection_method` appends exactly one root per scanner interval
whenever at least one iteration is allowed. -/
lemma bisection_method_roots_length (f : ℚ → ℚ) (lo hi tol : ℚ)
    (maxIter : ℕ) (hm : 1 ≤ maxIter) :
    (bisection_method_roots f lo hi tol maxIter).length
      = (find_sign_change_intervals f lo hi).length := by
  unfold bisection_method_roots
  apply length_filterMap_of_isSome
  intro ab _
  have h := bisection_interval_isSome f tol ab.1 ab.2 maxIter hm
  simpa using h

/-- Claim C9: a function that is exactly zero at an interior sample and
nonzero at the neighbouring samples makes the scanner emit the two
adjacent intervals ending and starting at that sample; bisection then
reports one root per scanner interval — hence at least two root entries
on the default 100-sample grid — and regula falsi likewise reports the
single root `0` of `f(x) = x` on `[-1, 98]` twice. -/
theorem C9_zero_sample_double_report (f : ℚ → ℚ) (lo hi : ℚ) (n j : ℕ)
    (hj : j + 2 < n)
    (h0 : f (linspacePt lo hi n (j + 1)) = 0)
    (h1 : f (linspacePt lo hi n j) ≠ 0)
    (h2 : f (linspacePt lo hi n (j + 2)) ≠ 0) :
    (∃ pre post,
      find_sign_change_intervals f lo hi n
        = pre ++ (linspacePt lo hi n j, linspacePt lo hi n (j + 1))
            :: (linspacePt lo hi n (j + 1), linspacePt lo hi n (j + 2)) :: post)
    ∧ (∀ tol maxIter, 1 ≤ maxIter →
        (bisection_method_roots f lo hi tol maxIter).length
          = (find_sign_change_intervals f lo hi).length)
    ∧ (n = 100 → ∀ tol maxIter, 1 ≤ maxIter →
        2 ≤ (bisection_method_roots f lo hi tol maxIter).length)
    ∧ regula_falsi_method_roots id (-1) 98 (1 / 2) 1 = [0, 0] := by
  have hsplit := signChange_zero_sample_split f lo hi n j hj h0
  refine ⟨hsplit,
    fun tol maxIter hm => bisection_method_roots_length f lo hi tol maxIter hm,
    ?_, of_decide_eq_true (by with_unfolding_all rfl)⟩
  rintro rfl tol maxIter hm
  rw [bisection_method_roots_length f lo hi tol maxIter hm]
  obtain ⟨pre, post, hs⟩ := hsplit
  rw [hs]
  simp only [List.length_append, List.length_cons]
  omega

/-- Witness for C9 with `f = id` on `[-1, 98]`, whose sample `x_1 = 0` is
an interior zero with nonzero neighbours. -/
theorem C9_zero_sample_double_report_witness :
    (bisection_method_roots id (-1) 98 (1 / 2) 1).length
      = (find_sign_change_intervals id (-1) 98).length :=
  (C9_zero_sample_double_report id (-1) 98 100 0 (by norm_num)
    (by norm_num [linspacePt]) (by norm_num [linspacePt])
    (by norm_num [linspacePt])).2.1 (1 / 2) 1 (le_refl 1)

end NumMeth
